import Mathlib

/-!
Verification of the `ril` image-representation core.

The repository fragment at hand ships only the Python binding glue
(`setup.py` building the PyO3 extension, and `test/test_image.py`); the core
image buffer, pixel model and codec framework live in the Rust crate that
the extension wraps, which is not part of the fragment.  Every definition
below is therefore modelled from the specification document, and the
binding tests are reflected as concrete instances of the theorems.
-/

namespace Ril

/-- One 8-bit channel sample: the `u8` domain `0..255`. -/
abbrev U8 := Fin 256

/-- Modelled from the spec: the unified error taxonomy of section 7
(`InvalidDimensions`, `DimensionMismatch`, `OutOfBounds`, `UnknownFormat`,
`CorruptData{offset,detail}`, `UnsupportedFeature{feature}`,
`InsufficientData`, `UnsupportedPixelModel`).  The Rust implementation is
not in the fragment. -/
inductive Error where
  | InvalidDimensions
  | DimensionMismatch
  | OutOfBounds
  | UnknownFormat
  | CorruptData (offset : Nat) (detail : String)
  | UnsupportedFeature (feature : String)
  | InsufficientData
  | UnsupportedPixelModel
  deriving DecidableEq

/-- Modelled from the spec: the Pixel value type of section 3, a closed
tagged-variant family `L` (8-bit luminance), `LA` (luminance+alpha),
`Rgb` (3 by 8 bit) and `Rgba` (4 by 8 bit).  The `Dynamic` runtime-tagged
union of the spec is subsumed by this inductive being a tagged union
already.  The Rust implementation is not in the fragment. -/
inductive Pixel where
  | L (l : U8)
  | LA (l a : U8)
  | Rgb (r g b : U8)
  | Rgba (r g b a : U8)
  deriving DecidableEq

instance : Inhabited Pixel := ⟨.Rgb 0 0 0⟩

deriving instance DecidableEq for Except

/-- Modelled from the spec: the generic `Pixel.from_rgb` constructor of the
binding surface (section 6), constructing the canonical `Rgb` variant. -/
def Pixel.from_rgb (r g b : U8) : Pixel := .Rgb r g b

/-- Modelled from the spec: `from_rgba(r,g,b,a) -> Self`, construction via
the canonical format (section 4.1); total over the `u8` domain, no failure
path and no clamping. -/
def Pixel.from_rgba (r g b a : U8) : Pixel := .Rgba r g b a

/-- Modelled from the spec: `as_rgba() -> (u8,u8,u8,u8)`, the canonical
lossless widening of every variant to `Rgba` (section 4.1). -/
def Pixel.as_rgba : Pixel → U8 × U8 × U8 × U8
  | .L l => (l, l, l, 255)
  | .LA l a => (l, l, l, a)
  | .Rgb r g b => (r, g, b, 255)
  | .Rgba r g b a => (r, g, b, a)

/-- Modelled from the spec: `has_alpha()` capability report of section 3. -/
def Pixel.has_alpha : Pixel → Bool
  | .LA _ _ => true
  | .Rgba _ _ _ _ => true
  | _ => false

/-- Modelled from the spec: the Image buffer of section 3, owning a single
contiguous store of `width * height` pixel values plus its dimensions.
The Rust implementation is not in the fragment. -/
structure Image where
  width : Nat
  height : Nat
  store : List Pixel
  deriving DecidableEq

/-- The spec's structural invariant: `store.length == width * height`. -/
def Image.Valid (img : Image) : Prop :=
  img.store.length = img.width * img.height

instance (img : Image) : Decidable img.Valid := by
  unfold Image.Valid; infer_instance

/-- Modelled from the spec: `new(width, height, fill)` allocates
`width*height` pixels all equal to `fill`, failing with
`InvalidDimensions` if `width == 0 or height == 0` (section 4.2). -/
def Image.new (width height : Nat) (fill : Pixel) : Except Error Image :=
  if width = 0 ∨ height = 0 then .error .InvalidDimensions
  else .ok ⟨width, height, List.replicate (width * height) fill⟩

/-- Modelled from the spec: `from_pixels(width, height, data)`, failing
with `DimensionMismatch` if `data.length != width*height` (section 4.2). -/
def Image.from_pixels (width height : Nat) (data : List Pixel) :
    Except Error Image :=
  if data.length ≠ width * height then .error .DimensionMismatch
  else .ok ⟨width, height, data⟩

/-- Modelled from the spec: bounds-checked `get(x, y)`, failing with
`OutOfBounds` if `x >= width or y >= height`; the store is row-major
(section 4.2). -/
def Image.get (img : Image) (x y : Nat) : Except Error Pixel :=
  if x ≥ img.width ∨ y ≥ img.height then .error .OutOfBounds
  else .ok (img.store.getD (y * img.width + x) default)

/-- Modelled from the spec: bounds-checked `set(x, y, pixel)` with the same
bounds contract as `get`; mutation is modelled by returning the updated
image, so a failing `set` yields no updated image and the original buffer
is untouched (sections 4.2 and 7). -/
def Image.set (img : Image) (x y : Nat) (p : Pixel) : Except Error Image :=
  if x ≥ img.width ∨ y ≥ img.height then .error .OutOfBounds
  else .ok { img with store := img.store.set (y * img.width + x) p }

/-- Modelled from the spec: `dimensions() -> (width, height)`. -/
def Image.dimensions (img : Image) : Nat × Nat := (img.width, img.height)

/-- Modelled from the spec: `pixels()`, the row-major read-only view —
exactly `height` rows of exactly `width` pixels, row 0 first,
left-to-right within a row (section 4.2). -/
def Image.pixels (img : Image) : List (List Pixel) :=
  (List.range img.height).map fun y =>
    (List.range img.width).map fun x =>
      img.store.getD (y * img.width + x) default

/-- Modelled from the spec: `map(f)`, a pure transform producing a new
Image of the same dimensions (section 4.2). -/
def Image.map (img : Image) (f : Pixel → Pixel) : Image :=
  { img with store := img.store.map f }

/-- Little-endian serialization of a `u32` dimension field into four
bytes, used by the modelled codec containers. -/
def encodeNat32 (n : Nat) : List U8 :=
  [⟨n % 256, by omega⟩, ⟨n / 256 % 256, by omega⟩,
   ⟨n / 256 / 256 % 256, by omega⟩, ⟨n / 256 / 256 / 256 % 256, by omega⟩]

/-- Little-endian reconstruction of a `u32` from four bytes. -/
def decodeNat32 (b0 b1 b2 b3 : U8) : Nat :=
  b0.val + 256 * (b1.val + 256 * (b2.val + 256 * b3.val))

/-- Is this pixel the `Rgb` variant?  (The capability query `can_encode`
of the modelled RGB raw codec.) -/
def isRgb : Pixel → Bool
  | .Rgb _ _ _ => true
  | _ => false

/-- Is this pixel the `L` variant?  (The capability query `can_encode`
of the modelled grayscale raw codec.) -/
def isL : Pixel → Bool
  | .L _ => true
  | _ => false

/-- Byte payload of one `Rgb` pixel (three bytes); other variants are
rejected by the codec before this is reached. -/
def rgbBytes : Pixel → List U8
  | .Rgb r g b => [r, g, b]
  | _ => []

/-- Byte payload of one `L` pixel (one byte); other variants are rejected
by the codec before this is reached. -/
def lBytes : Pixel → List U8
  | .L l => [l]
  | _ => []

/-- Rebuild the row-major `Rgb` pixel store from a scanline byte payload,
three bytes per pixel. -/
def chunkRgb : List U8 → List Pixel
  | r :: g :: b :: rest => .Rgb r g b :: chunkRgb rest
  | _ => []

/-- Rebuild the row-major `L` pixel store from a scanline byte payload,
one byte per pixel. -/
def chunkL : List U8 → List Pixel
  | l :: rest => .L l :: chunkL rest
  | [] => []

/-- Modelled from the spec: the codec descriptor of section 3 — a
stateless capability record with a magic-byte matcher, a decode function
and an encode function.  No format implementation is in the fragment, so
two representative lossless codecs are modelled below. -/
structure Codec where
  matcher : List U8 → Bool
  decode : List U8 → Except Error Image
  encode : Image → Except Error (List U8)
  can_encode : Pixel → Bool

/-- Magic bytes of the modelled lossless RGB raw format. -/
def rawMagic : List U8 := [82, 73]

/-- Matcher of the RGB raw format: tests the buffer's leading bytes
against the magic signature. -/
def rawMatcher : List U8 → Bool
  | m0 :: m1 :: _ => m0 == 82 && m1 == 73
  | _ => false

/-- Modelled from the spec: `encode` of a lossless RGB format — magic,
little-endian `u32` width and height, then the raw row-major scanline
payload; fails with `UnsupportedPixelModel` when a pixel is not of the
`Rgb` variant the format supports (section 4.4). -/
def rawEncode (img : Image) : Except Error (List U8) :=
  if img.store.all isRgb then
    .ok (rawMagic ++ encodeNat32 img.width ++ encodeNat32 img.height ++
      img.store.flatMap rgbBytes)
  else .error .UnsupportedPixelModel

/-- Modelled from the spec: `decode` of the lossless RGB raw format —
validates the magic, reads the declared dimensions, checks the declared
size against the actual remaining buffer length before building the
image, and fails with `CorruptData`/`InsufficientData` otherwise
(sections 4.4 and 5). -/
def rawDecode (buf : List U8) : Except Error Image :=
  match buf with
  | m0 :: m1 :: w0 :: w1 :: w2 :: w3 :: h0 :: h1 :: h2 :: h3 :: rest =>
    if m0 == 82 && m1 == 73 then
      let w := decodeNat32 w0 w1 w2 w3
      let h := decodeNat32 h0 h1 h2 h3
      if w = 0 ∨ h = 0 then .error (.CorruptData 2 "zero dimension")
      else if rest.length < w * h * 3 then .error .InsufficientData
      else if rest.length = w * h * 3 then .ok ⟨w, h, chunkRgb rest⟩
      else .error (.CorruptData 10 "trailing bytes")
    else .error (.CorruptData 0 "bad magic")
  | _ => .error .InsufficientData

/-- Magic bytes of the modelled lossless grayscale raw format. -/
def grayMagic : List U8 := [71, 76]

/-- Matcher of the grayscale raw format. -/
def grayMatcher : List U8 → Bool
  | m0 :: m1 :: _ => m0 == 71 && m1 == 76
  | _ => false

/-- Modelled from the spec: `encode` of a lossless grayscale format, one
byte per `L` pixel after the same magic/dimension header. -/
def grayEncode (img : Image) : Except Error (List U8) :=
  if img.store.all isL then
    .ok (grayMagic ++ encodeNat32 img.width ++ encodeNat32 img.height ++
      img.store.flatMap lBytes)
  else .error .UnsupportedPixelModel

/-- Modelled from the spec: `decode` of the lossless grayscale raw
format. -/
def grayDecode (buf : List U8) : Except Error Image :=
  match buf with
  | m0 :: m1 :: w0 :: w1 :: w2 :: w3 :: h0 :: h1 :: h2 :: h3 :: rest =>
    if m0 == 71 && m1 == 76 then
      let w := decodeNat32 w0 w1 w2 w3
      let h := decodeNat32 h0 h1 h2 h3
      if w = 0 ∨ h = 0 then .error (.CorruptData 2 "zero dimension")
      else if rest.length < w * h then .error .InsufficientData
      else if rest.length = w * h then .ok ⟨w, h, chunkL rest⟩
      else .error (.CorruptData 10 "trailing bytes")
    else .error (.CorruptData 0 "bad magic")
  | _ => .error .InsufficientData

/-- The RGB raw codec descriptor. -/
def rawCodec : Codec := ⟨rawMatcher, rawDecode, rawEncode, isRgb⟩

/-- The grayscale raw codec descriptor. -/
def grayCodec : Codec := ⟨grayMatcher, grayDecode, grayEncode, isL⟩

/-- Modelled from the spec: the static codec table, an immutable ordered
list built once (sections 4.3 and 9); its order is the registration
order. -/
def codecTable : List Codec := [rawCodec, grayCodec]

/-- Modelled from the spec: format detection (section 4.3) — iterate the
static codec table in registration order, test each matcher against the
buffer, first match wins; `UnknownFormat` when no codec matches. -/
def detect (buf : List U8) : Except Error Codec :=
  match codecTable.find? (fun c => c.matcher buf) with
  | some c => .ok c
  | none => .error .UnknownFormat

/-- Modelled from the spec: detection in the presence of an externally
supplied filename — the filename is never trusted, detection is
content-based only (section 4.3). -/
def detect_with_filename (filename : String) (buf : List U8) :
    Except Error Codec :=
  let _ := filename
  detect buf

/-! ### Helper lemmas -/

lemma getD_set_self {α : Type} (l : List α) (i : Nat) (a d : α)
    (h : i < l.length) : (l.set i a).getD i d = a := by
  induction l generalizing i with
  | nil => simp at h
  | cons x xs ih =>
    cases i with
    | zero => rfl
    | succ n => simpa [List.getD] using ih n (by simpa using h)

lemma getD_set_ne {α : Type} (l : List α) (i j : Nat) (a d : α)
    (h : i ≠ j) : (l.set i a).getD j d = l.getD j d := by
  induction l generalizing i j with
  | nil => rfl
  | cons x xs ih =>
    cases i with
    | zero =>
      cases j with
      | zero => exact absurd rfl h
      | succ m => rfl
    | succ n =>
      cases j with
      | zero => rfl
      | succ m =>
        simpa [List.getD] using ih n m (fun e => h (by omega))

lemma rowmajor_index_inj {w x x' y y' : Nat} (hx : x < w) (hx' : x' < w)
    (h : y' * w + x' = y * w + x) : x' = x ∧ y' = y := by
  have hw : 0 < w := Nat.lt_of_le_of_lt (Nat.zero_le x) hx
  have hmod : (y' * w + x') % w = x' := by
    rw [Nat.add_comm, Nat.add_mul_mod_self_right, Nat.mod_eq_of_lt hx']
  have hmod' : (y * w + x) % w = x := by
    rw [Nat.add_comm, Nat.add_mul_mod_self_right, Nat.mod_eq_of_lt hx]
  have hdiv : (y' * w + x') / w = y' := by
    rw [Nat.add_comm, Nat.add_mul_div_right _ _ hw, Nat.div_eq_of_lt hx']
    omega
  have hdiv' : (y * w + x) / w = y := by
    rw [Nat.add_comm, Nat.add_mul_div_right _ _ hw, Nat.div_eq_of_lt hx]
    omega
  refine ⟨by rw [← hmod, ← hmod', h], ?_⟩
  rw [← hdiv, ← hdiv', h]

lemma decodeNat32_encodeNat32 (n : Nat) (h : n < 2 ^ 32) :
    decodeNat32 ⟨n % 256, by omega⟩ ⟨n / 256 % 256, by omega⟩
      ⟨n / 256 / 256 % 256, by omega⟩ ⟨n / 256 / 256 / 256 % 256, by omega⟩
      = n := by
  simp only [decodeNat32]
  omega

lemma chunkRgb_flatMap (l : List Pixel) (h : ∀ p ∈ l, isRgb p = true) :
    chunkRgb (l.flatMap rgbBytes) = l := by
  induction l with
  | nil => rfl
  | cons p ps ih =>
    have hp := h p (List.mem_cons_self p ps)
    cases p with
    | Rgb r g b =>
      simp only [List.flatMap_cons, rgbBytes, List.cons_append,
        List.nil_append, chunkRgb]
      exact congrArg _ (ih fun q hq => h q (List.mem_cons_of_mem _ hq))
    | L l => simp [isRgb] at hp
    | LA l a => simp [isRgb] at hp
    | Rgba r g b a => simp [isRgb] at hp

lemma length_flatMap_rgb (l : List Pixel) (h : ∀ p ∈ l, isRgb p = true) :
    (l.flatMap rgbBytes).length = 3 * l.length := by
  induction l with
  | nil => rfl
  | cons p ps ih =>
    have hp := h p (List.mem_cons_self p ps)
    have ihs := ih fun q hq => h q (List.mem_cons_of_mem _ hq)
    cases p with
    | Rgb r g b =>
      simp only [List.flatMap_cons, rgbBytes, List.length_append,
        List.length_cons, List.length_nil, ihs]
      omega
    | L l => simp [isRgb] at hp
    | LA l a => simp [isRgb] at hp
    | Rgba r g b a => simp [isRgb] at hp

lemma chunkL_flatMap (l : List Pixel) (h : ∀ p ∈ l, isL p = true) :
    chunkL (l.flatMap lBytes) = l := by
  induction l with
  | nil => rfl
  | cons p ps ih =>
    have hp := h p (List.mem_cons_self p ps)
    cases p with
    | L v =>
      simp only [List.flatMap_cons, lBytes, List.cons_append,
        List.nil_append, chunkL]
      exact congrArg _ (ih fun q hq => h q (List.mem_cons_of_mem _ hq))
    | LA a b => simp [isL] at hp
    | Rgb r g b => simp [isL] at hp
    | Rgba r g b a => simp [isL] at hp

lemma length_flatMap_l (l : List Pixel) (h : ∀ p ∈ l, isL p = true) :
    (l.flatMap lBytes).length = l.length := by
  induction l with
  | nil => rfl
  | cons p ps ih =>
    have hp := h p (List.mem_cons_self p ps)
    have ihs := ih fun q hq => h q (List.mem_cons_of_mem _ hq)
    cases p with
    | L v =>
      simp only [List.flatMap_cons, lBytes, List.length_append,
        List.length_cons, List.length_nil, ihs]
      omega
    | LA a b => simp [isL] at hp
    | Rgb r g b => simp [isL] at hp
    | Rgba r g b a => simp [isL] at hp

lemma chunkRgb_length (k : Nat) :
    ∀ l : List U8, l.length = 3 * k → (chunkRgb l).length = k := by
  induction k with
  | zero =>
    intro l hl
    have : l = [] := List.eq_nil_of_length_eq_zero (by omega)
    subst this; rfl
  | succ n ih =>
    intro l hl
    cases l with
    | nil => simp at hl
    | cons r t =>
      cases t with
      | nil => simp at hl; omega
      | cons g t2 =>
        cases t2 with
        | nil => simp at hl; omega
        | cons b rest =>
          simp only [chunkRgb, List.length_cons]
          rw [ih rest (by simp at hl; omega)]

lemma chunkL_length (l : List U8) : (chunkL l).length = l.length := by
  induction l with
  | nil => rfl
  | cons x xs ih => simp [chunkL, ih]

lemma rowmajor_index_lt {w h x y : Nat} (hx : x < w) (hy : y < h) :
    y * w + x < w * h := by
  have h1 : y * w + x < (y + 1) * w := by rw [Nat.succ_mul]; omega
  have h2 : (y + 1) * w ≤ h * w := Nat.mul_le_mul_right w hy
  have h3 : h * w = w * h := Nat.mul_comm h w
  omega

lemma getD_replicate {α : Type} (n i : Nat) (a d : α) (h : i < n) :
    (List.replicate n a).getD i d = a := by
  induction n generalizing i with
  | zero => omega
  | succ m ih =>
    cases i with
    | zero => rfl
    | succ j => simpa [List.replicate, List.getD] using ih j (by omega)

lemma get_mk (w h : Nat) (s : List Pixel) (x y : Nat) :
    Image.get ⟨w, h, s⟩ x y =
      if x ≥ w ∨ y ≥ h then .error .OutOfBounds
      else .ok (s.getD (y * w + x) default) := rfl

/-! ### The claims -/

/-- C1: for every `w > 0`, `h > 0` and pixel `p`, `Image.new w h p`
succeeds with an image whose `dimensions` is `(w, h)`, whose `width` is
`w` and `height` is `h`, and in which every pixel equals `p`. -/
theorem new_dimensions_and_fill (w h : Nat) (p : Pixel)
    (hw : 0 < w) (hh : 0 < h) :
    ∃ img : Image, Image.new w h p = .ok img ∧ img.dimensions = (w, h) ∧
      img.width = w ∧ img.height = h ∧ ∀ q ∈ img.store, q = p := by
  refine ⟨⟨w, h, List.replicate (w * h) p⟩, ?_, rfl, rfl, rfl, ?_⟩
  · rw [Image.new, if_neg (by omega)]
  · intro q hq
    exact (List.eq_of_mem_replicate hq)

/-- Witness for C1: the binding test `test_create_image` instance,
`Image.new 1 1 (Pixel.from_rgb 255 255 255)`. -/
theorem new_dimensions_and_fill_witness :
    ∃ img : Image, Image.new 1 1 (Pixel.from_rgb 255 255 255) = .ok img ∧
      img.dimensions = (1, 1) ∧ img.width = 1 ∧ img.height = 1 ∧
      ∀ q ∈ img.store, q = Pixel.from_rgb 255 255 255 :=
  new_dimensions_and_fill 1 1 (Pixel.from_rgb 255 255 255)
    (by decide) (by decide)

/-- C5: both `get` and `set` fail with `OutOfBounds` on every coordinate
with `x ≥ width` or `y ≥ height` (boundary cases included), and a failing
`set` yields no updated image at all — the operation is modelled as
returning either the updated image or the error, so on failure the
original buffer is the only buffer and is untouched. -/
theorem oob_get_set (img : Image) (x y : Nat) (q : Pixel)
    (h : x ≥ img.width ∨ y ≥ img.height) :
    img.get x y = .error .OutOfBounds ∧
      img.set x y q = .error .OutOfBounds ∧
      ∀ img' : Image, img.set x y q = .ok img' → False := by
  refine ⟨by rw [Image.get, if_pos h], by rw [Image.set, if_pos h], ?_⟩
  intro img' hok
  rw [Image.set, if_pos h] at hok
  exact Except.noConfusion hok

/-- Witness for C5: the boundary case `x = width` on a 1 by 1 image. -/
theorem oob_get_set_witness :
    (Image.mk 1 1 [Pixel.Rgb 0 0 0]).get 1 0 = .error .OutOfBounds ∧
      (Image.mk 1 1 [Pixel.Rgb 0 0 0]).set 1 0 (Pixel.Rgb 9 9 9)
        = .error .OutOfBounds ∧
      ∀ img' : Image,
        (Image.mk 1 1 [Pixel.Rgb 0 0 0]).set 1 0 (Pixel.Rgb 9 9 9)
          = .ok img' → False :=
  oob_get_set (Image.mk 1 1 [Pixel.Rgb 0 0 0]) 1 0 (Pixel.Rgb 9 9 9)
    (by decide)

/-- C6: `Image.new` fails with `InvalidDimensions` exactly when
`width = 0` or `height = 0`. -/
theorem new_zero_dims_iff (w h : Nat) (p : Pixel) :
    Image.new w h p = .error .InvalidDimensions ↔ w = 0 ∨ h = 0 := by
  rw [Image.new]
  split
  · simp_all
  · simp_all

/-- Witness for C6: `Image.new 0 5 p` and `Image.new 5 0 p` both fail with
`InvalidDimensions`. -/
theorem new_zero_dims_iff_witness :
    Image.new 0 5 (Pixel.Rgb 0 0 0) = .error .InvalidDimensions ∧
      Image.new 5 0 (Pixel.Rgb 0 0 0) = .error .InvalidDimensions :=
  ⟨(new_zero_dims_iff 0 5 (Pixel.Rgb 0 0 0)).mpr (Or.inl rfl),
   (new_zero_dims_iff 5 0 (Pixel.Rgb 0 0 0)).mpr (Or.inr rfl)⟩

/-- C8: pixel widening is total — `from_rgba` followed by `as_rgba` is the
identity on every `(r, g, b, a)` in the `u8` domain; the constructor
returns a `Pixel` (not a result type), so there is no failure path, and
the channels are returned exactly, so nothing is clamped. -/
theorem widen_total (r g b a : U8) :
    (Pixel.from_rgba r g b a).as_rgba = (r, g, b, a) := rfl

/-- Witness for C8 at a concrete channel tuple. -/
theorem widen_total_witness :
    (Pixel.from_rgba 10 20 30 40).as_rgba = (10, 20, 30, 40) :=
  widen_total 10 20 30 40

/-- C2: `pixels()` yields exactly `height` rows of exactly `width` pixels
each, in scan order — entry `x` of row `y` is exactly what `get x y`
returns. -/
theorem pixels_scan_order (img : Image) (hv : img.Valid) :
    img.pixels.length = img.height ∧
    (∀ row ∈ img.pixels, row.length = img.width) ∧
    ∀ x y, x < img.width → y < img.height →
      img.get x y = .ok ((img.pixels.getD y []).getD x default) := by
  refine ⟨by simp [Image.pixels], ?_, ?_⟩
  · intro row hrow
    rw [Image.pixels] at hrow
    obtain ⟨y, _, rfl⟩ := List.mem_map.mp hrow
    simp
  · intro x y hx hy
    have hrow : img.pixels.getD y [] =
        (List.range img.width).map
          (fun x => img.store.getD (y * img.width + x) default) := by
      rw [Image.pixels, List.getD_eq_getElem?_getD,
        List.getElem?_map, List.getElem?_range hy]
      rfl
    rw [hrow, List.getD_eq_getElem?_getD, List.getElem?_map,
      List.getElem?_range hx, Image.get, if_neg (by omega)]
    rfl

/-- Witness for C2: the binding test `test_image_pixels` instance —
`pixels()` on the 1 by 1 white image is exactly `[[Rgb 255 255 255]]`,
and the scan-order contract instantiated there. -/
theorem pixels_scan_order_witness :
    (Image.mk 1 1 [Pixel.Rgb 255 255 255]).pixels
        = [[Pixel.Rgb 255 255 255]] ∧
    ((Image.mk 1 1 [Pixel.Rgb 255 255 255]).pixels.length = 1 ∧
      (∀ row ∈ (Image.mk 1 1 [Pixel.Rgb 255 255 255]).pixels,
        row.length = 1) ∧
      ∀ x y, x < 1 → y < 1 →
        (Image.mk 1 1 [Pixel.Rgb 255 255 255]).get x y =
          .ok (((Image.mk 1 1 [Pixel.Rgb 255 255 255]).pixels.getD y
            []).getD x default)) :=
  ⟨by decide,
    pixels_scan_order (Image.mk 1 1 [Pixel.Rgb 255 255 255]) (by decide)⟩

/-- C4: on a valid image, `set` at an in-bounds coordinate succeeds, a
subsequent `get` at that coordinate returns the written pixel, and every
other in-bounds coordinate reads exactly as before. -/
theorem set_get_frame (img : Image) (x y : Nat) (q : Pixel)
    (hv : img.Valid) (hx : x < img.width) (hy : y < img.height) :
    ∃ img' : Image, img.set x y q = .ok img' ∧ img'.get x y = .ok q ∧
      ∀ x' y', x' < img.width → y' < img.height → ¬(x' = x ∧ y' = y) →
        img'.get x' y' = img.get x' y' := by
  have hidx : y * img.width + x < img.store.length := by
    rw [hv]; exact rowmajor_index_lt hx hy
  refine ⟨{ img with store := img.store.set (y * img.width + x) q },
    ?_, ?_, ?_⟩
  · rw [Image.set, if_neg (by omega)]
  · rw [get_mk, if_neg (by omega), getD_set_self _ _ _ _ hidx]
  · intro x' y' hx' hy' hne
    rw [get_mk, Image.get, if_neg (by omega), if_neg (by omega)]
    congr 1
    apply getD_set_ne
    intro e
    have h2 := rowmajor_index_inj hx' hx e
    exact hne ⟨h2.1.symm, h2.2.symm⟩

/-- Witness for C4: write `Rgb 9 9 9` at `(1, 0)` of a valid 2 by 2
image. -/
theorem set_get_frame_witness :
    ∃ img' : Image,
      (Image.mk 2 2 (List.replicate 4 (Pixel.Rgb 0 0 0))).set 1 0
          (Pixel.Rgb 9 9 9) = .ok img' ∧
        img'.get 1 0 = .ok (Pixel.Rgb 9 9 9) ∧
        ∀ x' y', x' < 2 → y' < 2 → ¬(x' = 1 ∧ y' = 0) →
          img'.get x' y' =
            (Image.mk 2 2 (List.replicate 4 (Pixel.Rgb 0 0 0))).get x' y' :=
  set_get_frame (Image.mk 2 2 (List.replicate 4 (Pixel.Rgb 0 0 0))) 1 0
    (Pixel.Rgb 9 9 9) (by decide) (by decide) (by decide)

/-- C10: the generic constructor `Pixel.from_rgb r g b` builds the very
value the variant constructor `Pixel.Rgb r g b` builds, and an image
filled with it reports every pixel of its `pixels()` view as equal to
`Pixel.Rgb r g b`. -/
theorem from_rgb_canonical (r g b : U8) (w h : Nat) (img : Image)
    (hok : Image.new w h (Pixel.from_rgb r g b) = .ok img) :
    Pixel.from_rgb r g b = Pixel.Rgb r g b ∧
    ∀ row ∈ img.pixels, ∀ q ∈ row, q = Pixel.Rgb r g b := by
  refine ⟨rfl, ?_⟩
  rw [Image.new] at hok
  split at hok
  · exact Except.noConfusion hok
  · rename_i hcond
    have himg :
        img = ⟨w, h, List.replicate (w * h) (Pixel.from_rgb r g b)⟩ :=
      (Except.ok.inj hok).symm
    subst himg
    intro row hrow q hq
    rw [Image.pixels] at hrow
    dsimp only at hrow
    obtain ⟨y, hymem, rfl⟩ := List.mem_map.mp hrow
    obtain ⟨x, hxmem, rfl⟩ := List.mem_map.mp hq
    exact getD_replicate _ _ _ _
      (rowmajor_index_lt (List.mem_range.mp hxmem) (List.mem_range.mp hymem))

/-- Witness for C10: the binding tests' value
`Pixel.from_rgb 255 255 255` compared with `Rgb 255 255 255` on the
1 by 1 image. -/
theorem from_rgb_canonical_witness :
    Pixel.from_rgb 255 255 255 = Pixel.Rgb 255 255 255 ∧
    ∀ row ∈ (Image.mk 1 1 [Pixel.Rgb 255 255 255]).pixels,
      ∀ q ∈ row, q = Pixel.Rgb 255 255 255 :=
  from_rgb_canonical 255 255 255 1 1
    (Image.mk 1 1 [Pixel.Rgb 255 255 255]) (by decide)

lemma rawDecode_header (w h : Nat) (body : List U8) (hw : 0 < w)
    (hh : 0 < h) (hw32 : w < 2 ^ 32) (hh32 : h < 2 ^ 32)
    (hlen : body.length = w * h * 3) :
    rawDecode (rawMagic ++ encodeNat32 w ++ encodeNat32 h ++ body)
      = .ok ⟨w, h, chunkRgb body⟩ := by
  simp only [rawMagic, encodeNat32, List.cons_append, List.nil_append]
  simp only [rawDecode]
  rw [show ((82 : U8) == 82 && (73 : U8) == 73) = true from by decide,
    if_pos rfl]
  rw [decodeNat32_encodeNat32 w hw32, decodeNat32_encodeNat32 h hh32]
  rw [if_neg (by omega), if_neg (by omega), if_pos hlen]

lemma grayDecode_header (w h : Nat) (body : List U8) (hw : 0 < w)
    (hh : 0 < h) (hw32 : w < 2 ^ 32) (hh32 : h < 2 ^ 32)
    (hlen : body.length = w * h) :
    grayDecode (grayMagic ++ encodeNat32 w ++ encodeNat32 h ++ body)
      = .ok ⟨w, h, chunkL body⟩ := by
  simp only [grayMagic, encodeNat32, List.cons_append, List.nil_append]
  simp only [grayDecode]
  rw [show ((71 : U8) == 71 && (76 : U8) == 76) = true from by decide,
    if_pos rfl]
  rw [decodeNat32_encodeNat32 w hw32, decodeNat32_encodeNat32 h hh32]
  rw [if_neg (by omega), if_neg (by omega), if_pos hlen]

lemma rawCodec_ne_grayCodec : rawCodec ≠ grayCodec := by
  intro e
  have h2 : rawCodec.matcher [82, 73] = grayCodec.matcher [82, 73] := by
    rw [e]
  revert h2
  decide

/-- C3: the size invariant `store.length = width * height` holds after
construction (`new`, `from_pixels`, the codecs' `decode`) and is
preserved by every operation, and no operation changes `width` or
`height` — `set` and `map` return images with the original dimensions,
and `get`/`pixels`/`dimensions` do not produce images at all. -/
theorem size_invariant_preserved :
    (∀ w h p img, Image.new w h p = .ok img →
      img.Valid ∧ img.width = w ∧ img.height = h) ∧
    (∀ w h data img, Image.from_pixels w h data = .ok img →
      img.Valid ∧ img.width = w ∧ img.height = h) ∧
    (∀ (img : Image) x y q img', img.Valid → img.set x y q = .ok img' →
      img'.Valid ∧ img'.width = img.width ∧ img'.height = img.height) ∧
    (∀ (img : Image) f, img.Valid →
      (img.map f).Valid ∧ (img.map f).width = img.width ∧
        (img.map f).height = img.height) ∧
    (∀ buf img, rawDecode buf = .ok img → img.Valid) ∧
    (∀ buf img, grayDecode buf = .ok img → img.Valid) := by
  refine ⟨?_, ?_, ?_, ?_, ?_, ?_⟩
  · intro w h p img hok
    rw [Image.new] at hok
    split at hok
    · exact Except.noConfusion hok
    · have h2 := Except.ok.inj hok
      subst h2
      exact ⟨by simp [Image.Valid], rfl, rfl⟩
  · intro w h data img hok
    rw [Image.from_pixels] at hok
    split at hok
    · exact Except.noConfusion hok
    · rename_i hc
      have h2 := Except.ok.inj hok
      subst h2
      exact ⟨by simpa [Image.Valid] using not_ne_iff.mp hc, rfl, rfl⟩
  · intro img x y q img' hv hok
    rw [Image.set] at hok
    split at hok
    · exact Except.noConfusion hok
    · have h2 := Except.ok.inj hok
      subst h2
      exact ⟨by simpa [Image.Valid] using hv, rfl, rfl⟩
  · intro img f hv
    exact ⟨by simpa [Image.Valid, Image.map] using hv, rfl, rfl⟩
  · intro buf img hok
    rw [rawDecode.eq_def] at hok
    split at hok
    · rename_i m0 m1 w0 w1 w2 w3 h0 h1 h2 h3 rest
      dsimp only at hok
      split at hok
      · split at hok
        · exact Except.noConfusion hok
        · split at hok
          · exact Except.noConfusion hok
          · split at hok
            · rename_i hnz hge hlen
              have h2 := Except.ok.inj hok
              subst h2
              have h3 : (chunkRgb rest).length
                  = decodeNat32 w0 w1 w2 w3 * decodeNat32 h0 h1 h2 h3 :=
                chunkRgb_length _ _ (by omega)
              exact h3
            · exact Except.noConfusion hok
      · exact Except.noConfusion hok
    · exact Except.noConfusion hok
  · intro buf img hok
    rw [grayDecode.eq_def] at hok
    split at hok
    · rename_i m0 m1 w0 w1 w2 w3 h0 h1 h2 h3 rest
      dsimp only at hok
      split at hok
      · split at hok
        · exact Except.noConfusion hok
        · split at hok
          · exact Except.noConfusion hok
          · split at hok
            · rename_i hnz hge hlen
              have h2 := Except.ok.inj hok
              subst h2
              have h3 : (chunkL rest).length
                  = decodeNat32 w0 w1 w2 w3 * decodeNat32 h0 h1 h2 h3 := by
                rw [chunkL_length, hlen]
              exact h3
            · exact Except.noConfusion hok
      · exact Except.noConfusion hok
    · exact Except.noConfusion hok

/-- Witness for C3: the constructed 2 by 3 image satisfies the size
invariant with its dimensions intact. -/
theorem size_invariant_preserved_witness :
    (Image.mk 2 3 (List.replicate 6 (Pixel.Rgb 1 2 3))).Valid ∧
      (Image.mk 2 3 (List.replicate 6 (Pixel.Rgb 1 2 3))).width = 2 ∧
      (Image.mk 2 3 (List.replicate 6 (Pixel.Rgb 1 2 3))).height = 3 :=
  size_invariant_preserved.1 2 3 (Pixel.Rgb 1 2 3)
    (Image.mk 2 3 (List.replicate 6 (Pixel.Rgb 1 2 3))) (by decide)

/-- C7: for each modelled lossless format, `decode` after `encode` is the
identity on every valid image whose pixel variant the format fully
supports (`Rgb` for the RGB raw format, `L` for the grayscale raw
format). -/
theorem lossless_roundtrip :
    (∀ img : Image, img.Valid → 0 < img.width → 0 < img.height →
      img.width < 2 ^ 32 → img.height < 2 ^ 32 →
      (∀ p ∈ img.store, isRgb p = true) →
      ∃ bs, rawEncode img = .ok bs ∧ rawDecode bs = .ok img) ∧
    (∀ img : Image, img.Valid → 0 < img.width → 0 < img.height →
      img.width < 2 ^ 32 → img.height < 2 ^ 32 →
      (∀ p ∈ img.store, isL p = true) →
      ∃ bs, grayEncode img = .ok bs ∧ grayDecode bs = .ok img) := by
  constructor
  · intro img hv hw hh hw32 hh32 hall
    have hallb : img.store.all isRgb = true := List.all_eq_true.mpr hall
    refine ⟨_, by rw [rawEncode, if_pos hallb], ?_⟩
    have hlen : (img.store.flatMap rgbBytes).length
        = img.width * img.height * 3 := by
      rw [length_flatMap_rgb _ hall, hv]; ring
    rw [rawDecode_header img.width img.height _ hw hh hw32 hh32 hlen,
      chunkRgb_flatMap _ hall]
  · intro img hv hw hh hw32 hh32 hall
    have hallb : img.store.all isL = true := List.all_eq_true.mpr hall
    refine ⟨_, by rw [grayEncode, if_pos hallb], ?_⟩
    have hlen : (img.store.flatMap lBytes).length
        = img.width * img.height := by
      rw [length_flatMap_l _ hall, hv]
    rw [grayDecode_header img.width img.height _ hw hh hw32 hh32 hlen,
      chunkL_flatMap _ hall]

/-- Witness for C7: the round trip at the 1 by 1 white RGB image, at a
multi-pixel RGB image with distinct values per pixel, and at a
two-pixel grayscale image. -/
theorem lossless_roundtrip_witness :
    (∃ bs, rawEncode (Image.mk 1 1 [Pixel.Rgb 255 255 255]) = .ok bs ∧
      rawDecode bs = .ok (Image.mk 1 1 [Pixel.Rgb 255 255 255])) ∧
    (∃ bs, rawEncode (Image.mk 3 1
        [Pixel.Rgb 1 2 3, Pixel.Rgb 4 5 6, Pixel.Rgb 7 8 9]) = .ok bs ∧
      rawDecode bs = .ok (Image.mk 3 1
        [Pixel.Rgb 1 2 3, Pixel.Rgb 4 5 6, Pixel.Rgb 7 8 9])) ∧
    (∃ bs, grayEncode (Image.mk 2 1 [Pixel.L 7, Pixel.L 9]) = .ok bs ∧
      grayDecode bs = .ok (Image.mk 2 1 [Pixel.L 7, Pixel.L 9])) :=
  ⟨lossless_roundtrip.1 (Image.mk 1 1 [Pixel.Rgb 255 255 255])
      (by decide) (by decide) (by decide) (by decide) (by decide)
      (by decide),
   lossless_roundtrip.1 (Image.mk 3 1
      [Pixel.Rgb 1 2 3, Pixel.Rgb 4 5 6, Pixel.Rgb 7 8 9])
      (by decide) (by decide) (by decide) (by decide) (by decide)
      (by decide),
   lossless_roundtrip.2 (Image.mk 2 1 [Pixel.L 7, Pixel.L 9])
      (by decide) (by decide) (by decide) (by decide) (by decide)
      (by decide)⟩

/-- C9: detection is a function of the buffer alone (any filename is
ignored), it walks the static codec table in registration order taking
the first codec whose matcher accepts the buffer — on the two-codec
table this is exactly: the RGB raw codec is selected iff its matcher
accepts, the grayscale codec is selected iff the RGB matcher rejects and
its own accepts — and detection fails with `UnknownFormat` exactly when
no registered matcher accepts the buffer. -/
theorem detect_first_match (buf : List U8) (filename : String) :
    (detect buf = .ok rawCodec ↔ rawCodec.matcher buf = true) ∧
    (detect buf = .ok grayCodec ↔
      rawCodec.matcher buf = false ∧ grayCodec.matcher buf = true) ∧
    (detect buf = .error .UnknownFormat ↔
      rawCodec.matcher buf = false ∧ grayCodec.matcher buf = false) ∧
    detect_with_filename filename buf = detect buf := by
  have hne := rawCodec_ne_grayCodec
  have hne' := Ne.symm rawCodec_ne_grayCodec
  refine ⟨?_, ?_, ?_, rfl⟩ <;>
    cases hr : rawCodec.matcher buf <;>
      cases hg : grayCodec.matcher buf <;>
        simp [detect, codecTable, List.find?, hr, hg, hne, hne']

/-- Witness for C9: a buffer carrying the RGB raw magic is routed to the
RGB raw codec even with a filename suggesting the grayscale format. -/
theorem detect_first_match_witness :
    rawCodec.matcher [82, 73, 0] = true ∧
    detect_with_filename "photo.gray" [82, 73, 0] = .ok rawCodec :=
  ⟨by decide,
    ((detect_first_match [82, 73, 0] "photo.gray").2.2.2).trans
      (((detect_first_match [82, 73, 0] "photo.gray").1).mpr (by decide))⟩

end Ril
